import Mathlib

/-!
Verification of the depth-first tree-traversal visitor engine
(`src/visitor/visiting.rs` and `src/visitor/visitable.rs`).

The engine is embedded shallowly:

* `Accumulable` mirrors the Rust trait of the same name: a neutral element
  and a binary combination.  The engine only ever calls `neutral`; the
  binary `accumulate` exists on the trait but is not used by the walker.
* `Visitor` mirrors `struct Visitor`: the root reference, the path stack
  (`stack : Vec<(&T, Accumulator)>`), the parallel cursor stack
  (`children : Vec<It>`), and the two closures `get_children` and
  `accumulate`.  A Rust `Vec` used as a stack (push/pop at the end) is
  modelled as a Lean list whose HEAD is the top of the stack (the Vec's
  last element); the path returned to the caller is the whole Vec in
  front-to-back order, i.e. `stack.reverse` here.  A child iterator
  (`It: Iterator<Item = &T>`) is modelled as the list of its remaining
  elements; `Iterator::next` is taking the head.
* `nextLoopAux` is the `loop { match self.children.last_mut() ... }` body
  of `Visitor::next`; `Visitor.next` is the whole method, entry branch
  included.  Where Rust returns `Option<&Vec<_>>` we return the value of
  the vector together with the successor state.
* `Visitor.run` iterates `next` the way callers do, feeding the head of a
  parameter list to each call (`zipped.next()`), collecting every returned
  path until the first `None`; the `Nat` fuel only bounds the number of
  `next` calls, and all theorems are stated with enough fuel.
* `visitDriver` mirrors `Visitable::visit`: the same loop, but each
  returned path is handed to the `on_visit` callback with the ROOT as
  receiver (`self.on_visit(stack, payload)` in the source, where `self`
  is the node `visit` was called on), threading the payload through.

Trees are the inductive `Tree` type (finitely branching, well-founded —
exactly the "finite tree" assumption of the specification), with
`Tree.children` as the child-enumeration closure.
-/

namespace Pinocchio

/-- A finite ordered tree: a value and a list of child subtrees.
Nodes of the Rust side are identified with the subtrees they root. -/
inductive Tree (α : Type) where
  | node (val : α) (children : List (Tree α)) : Tree α

/-- The value stored at the root of a tree. -/
def Tree.val : Tree α → α
  | .node v _ => v

/-- The direct children of a node, in order (`Visitable::children`). -/
def Tree.children : Tree α → List (Tree α)
  | .node _ cs => cs

mutual

/-- Number of nodes of a tree. -/
def Tree.size : Tree α → Nat
  | .node _ cs => 1 + Tree.sizeForest cs

/-- Number of nodes of a forest. -/
def Tree.sizeForest : List (Tree α) → Nat
  | [] => 0
  | t :: ts => Tree.size t + Tree.sizeForest ts

end

mutual

/-- Pre-order (depth-first, root first, siblings left to right) listing of
the nodes of a tree; specification-side yardstick for visitation order. -/
def Tree.preorder : Tree α → List (Tree α)
  | .node v cs => .node v cs :: Tree.preorderForest cs

/-- Pre-order listing of the nodes of a forest. -/
def Tree.preorderForest : List (Tree α) → List (Tree α)
  | [] => []
  | t :: ts => Tree.preorder t ++ Tree.preorderForest ts

end

/-- The Rust `Accumulable` trait: values that have a neutral element and a
binary combination (`fn neutral() -> Self; fn accumulate(&self, other: &Self) -> Self`).
Passed to the engine explicitly so that theorems can quantify over it. -/
structure Accumulable (Ac : Type) where
  neutral : Ac
  accumulate : Ac → Ac → Ac

/-- The Rust `struct Visitor`.  `stack` and `children` are the two parallel
Vecs (head = top of stack = last element of the Vec); `get_children` and
`accumulate` are the stored closures.  The `max_depth` constructor argument
only pre-sizes the Vecs' capacity in Rust and is not part of the state. -/
structure Visitor (T Ac P : Type) where
  root : T
  stack : List (T × Ac)
  children : List (List T)
  get_children : T → List T
  accumulate : T → Ac → Option P → Ac

/-- `Visitor::new`: empty stacks.  `Vec::with_capacity(max_depth)` only
pre-allocates; capacity is not observable state, so the hint is ignored. -/
def Visitor.new (root : T) (max_depth : Nat) (get_children : T → List T)
    (accumulate : T → Ac → Option P → Ac) : Visitor T Ac P :=
  { root := root, stack := [], children := [], get_children := get_children,
    accumulate := accumulate }

/-- The `loop { match self.children.last_mut() { ... } }` body of
`Visitor::next` (`visiting.rs` lines 87–108), acting on the two stacks.
Returns the returned path (if any) and the two result stacks.

* cursor stack empty (`children.last_mut()` is `None`): return `None`.
* top cursor exhausted (`current.next()` is `None`): pop both stacks, retry.
* top cursor yields a child: fold the child's contribution onto the
  accumulator at the top of the path stack (`self.stack.last().unwrap()`;
  that `unwrap` would panic on an empty path stack — the stacks stay
  parallel, so the `([], _)` fallback below is unreachable from reachable
  states), push the child with its accumulator, push its children cursor,
  and return the whole path stack. -/
def nextLoopAux (get_children : T → List T) (accumulate : T → Ac → Option P → Ac)
    (zipped : Option P) :
    List (T × Ac) → List (List T) →
    Option (List (T × Ac)) × (List (T × Ac) × List (List T))
  | stack, [] => (none, (stack, []))
  | stack, [] :: crest => nextLoopAux get_children accumulate zipped stack.tail crest
  | stack, (c :: cs) :: crest =>
    match stack with
    | [] => (none, ([], (c :: cs) :: crest))
    | (p, acc0) :: srest =>
      let acc := accumulate c acc0 zipped
      let stack2 := (c, acc) :: (p, acc0) :: srest
      (some stack2.reverse, (stack2, get_children c :: cs :: crest))

/-- `Visitor::next` (`visiting.rs` lines 79–109).  If the path stack is
empty, seed the root's accumulator from `Accumulator::neutral()`, push the
root and its cursor, and return the path; otherwise run the backtracking
loop.  The returned path is the whole `stack` Vec in front-to-back order. -/
def Visitor.next (inst : Accumulable Ac) (v : Visitor T Ac P) (zipped : Option P) :
    Option (List (T × Ac)) × Visitor T Ac P :=
  if v.stack.isEmpty then
    let acc := v.accumulate v.root inst.neutral zipped
    let stack2 := (v.root, acc) :: v.stack
    let children2 := v.get_children v.root :: v.children
    (some stack2.reverse, { v with stack := stack2, children := children2 })
  else
    let r := nextLoopAux v.get_children v.accumulate zipped v.stack v.children
    (r.1, { v with stack := r.2.1, children := r.2.2 })

/-- Fuel-counted variant of the backtracking loop: `none` when the given
number of loop iterations does not suffice to reach a `return`.  Used to
state how many iterations the loop needs (claim about termination). -/
def nextLoopFuel (get_children : T → List T) (accumulate : T → Ac → Option P → Ac)
    (zipped : Option P) :
    Nat → List (T × Ac) → List (List T) →
    Option (Option (List (T × Ac)) × (List (T × Ac) × List (List T)))
  | 0, _, _ => none
  | _ + 1, stack, [] => some (none, (stack, []))
  | fuel + 1, stack, [] :: crest => nextLoopFuel get_children accumulate zipped fuel stack.tail crest
  | _ + 1, stack, (c :: cs) :: crest =>
    match stack with
    | [] => some (none, ([], (c :: cs) :: crest))
    | (p, acc0) :: srest =>
      let acc := accumulate c acc0 zipped
      let stack2 := (c, acc) :: (p, acc0) :: srest
      some (some stack2.reverse, (stack2, get_children c :: cs :: crest))

/-- Driving loop of every caller (`while let Some(stack) = visitor.next(zipped.next())`):
feed the head of the parameter list to each `next` call, collect each
returned path, stop at the first `None`.  `fuel` bounds the number of
`next` calls; every theorem supplies enough of it. -/
def Visitor.run (inst : Accumulable Ac) :
    Nat → Visitor T Ac P → List P → List (List (T × Ac))
  | 0, _, _ => []
  | fuel + 1, v, params =>
    match v.next inst params.head? with
    | (none, _) => []
    | (some path, v2) => path :: Visitor.run inst fuel v2 params.tail

/-- `Visitable::visit` (`visitable.rs` lines 63–73): create a visitor and
loop, calling `self.on_visit(stack, payload)` on each returned path.  Note
the receiver of `on_visit` is `root` — the node `visit` was called on —
for every invocation, not the node currently being visited. -/
def visitDriver (inst : Accumulable Ac) (root : T)
    (on_visit : T → List (T × Ac) → Payload → Payload) :
    Nat → Visitor T Ac P → List P → Payload → Payload
  | 0, _, _, payload => payload
  | fuel + 1, v, zipped, payload =>
    match v.next inst zipped.head? with
    | (none, _) => payload
    | (some stack, v2) =>
      visitDriver inst root on_visit fuel v2 zipped.tail (on_visit root stack payload)

/-- `Visitable::visit` assembled: `self.visitor(max_depth)` then the loop. -/
def visit (inst : Accumulable Ac) (self : T) (max_depth : Nat)
    (get_children : T → List T) (accumulate : T → Ac → Option P → Ac)
    (on_visit : T → List (T × Ac) → Payload → Payload)
    (fuel : Nat) (zipped : List P) (payload : Payload) : Payload :=
  visitDriver inst self on_visit fuel
    (Visitor.new self max_depth get_children accumulate) zipped payload

/-- Specification-side description of what the walker produces on a forest:
given the ancestor path `anc` (front-to-back), the accumulator `pa` of the
last ancestor, the forest `ts` of trees still to visit at this level and
the remaining parameter list, produce the list of returned paths in order
together with the unconsumed parameters (one parameter per visited node). -/
def visitForest (f : Tree α → Ac → Option P → Ac) :
    List (Tree α × Ac) → Ac → List (Tree α) → List P →
    List (List (Tree α × Ac)) × List P
  | _, _, [], params => ([], params)
  | anc, pa, t :: ts, params =>
    let a := f t pa params.head?
    let anc2 := anc ++ [(t, a)]
    let r1 := visitForest f anc2 a t.children params.tail
    let r2 := visitForest f anc pa ts r1.2
    (anc2 :: (r1.1 ++ r2.1), r2.2)
termination_by _ _ ts _ => Tree.sizeForest ts
decreasing_by
  · cases t with
    | node v cs =>
      simp [Tree.sizeForest, Tree.size, Tree.children]
      omega
  · cases t with
    | node v cs => simp [Tree.sizeForest, Tree.size]

/-- The chain-of-ancestors predicate: `RootedChain gc root l last` says the
node list `l` starts at `root`, each node is a child (per `gc`) of the one
before it, and `last` is its last element. -/
inductive RootedChain (gc : T → List T) (root : T) : List T → T → Prop
  | base : RootedChain gc root [root] root
  | step (l : List T) (lst c : T) :
      RootedChain gc root l lst → c ∈ gc lst → RootedChain gc root (l ++ [c]) c

/-! Concrete fixtures of the repository's unit tests
(`visiting.rs::test_trivial_visitor`): the `Accumulable` impl for `i32`
(neutral `0`, addition), the closure `|x, acc, zipped| acc + x.val * zipped.unwrap()`,
and the tree with root value 1 and leaf children 2 and 3. -/

/-- `impl Accumulable for i32` from the unit tests: neutral 0, addition. -/
def instAccInt : Accumulable Int := { neutral := 0, accumulate := fun a b => a + b }

/-- The accumulation closure of `test_trivial_visitor`:
`|x, acc, zipped| acc + x.val * zipped.unwrap()`.  `unwrap` panics on
`None` in Rust; that branch is never reached in the scenario (the only
call made with `None` finds no child and never invokes the closure), so
its value here is immaterial. -/
def testAccumulate (x : Tree Int) (acc : Int) (zipped : Option Int) : Int :=
  match zipped with
  | some p => acc + x.val * p
  | none => acc

/-- `Node::new(1, vec![Node::new(2, vec![]), Node::new(3, vec![])])`. -/
def testTree : Tree Int := Tree.node 1 [Tree.node 2 [], Tree.node 3 []]

/-- The visitor of the unit test: root `testTree`, depth hint 2. -/
def testVisitor : Visitor (Tree Int) Int Int :=
  Visitor.new testTree 2 Tree.children testAccumulate

/-- State after the first advance of the unit-test traversal (root visited). -/
def testState1 : Visitor (Tree Int) Int Int := (testVisitor.next instAccInt (some 2)).2

/-- State after the second advance (child 2 visited). -/
def testState2 : Visitor (Tree Int) Int Int := (testState1.next instAccInt (some 3)).2

/-- State after the third advance (child 3 visited; all nodes visited). -/
def testState3 : Visitor (Tree Int) Int Int := (testState2.next instAccInt (some 4)).2

/-- An `Accumulable` instance with the same neutral element as `instAccInt`
but a different binary combination (multiplication instead of addition). -/
def instAccMul : Accumulable Int := { neutral := 0, accumulate := fun a b => a * b }

/-! Helper lemmas. -/

/-- A tree's size is one plus the size of the forest of its children. -/
theorem Tree.size_eq (t : Tree α) : t.size = 1 + Tree.sizeForest t.children := by
  cases t
  rfl

/-- A tree's pre-order listing is the tree followed by its children's
pre-order listing. -/
theorem Tree.preorder_eq (t : Tree α) :
    t.preorder = t :: Tree.preorderForest t.children := by
  cases t
  rfl

/-- When the backtracking loop starts from parallel stacks and returns
`None`, it has popped everything: both result stacks are empty. -/
theorem nextLoopAux_none_state (gc : T → List T) (f : T → Ac → Option P → Ac)
    (z : Option P) :
    ∀ (children : List (List T)) (stack : List (T × Ac)),
      children.length = stack.length →
      (nextLoopAux gc f z stack children).1 = none →
      (nextLoopAux gc f z stack children).2 = ([], []) := by
  intro children
  induction children with
  | nil =>
    intro stack hlen _
    have hstack : stack = [] := List.length_eq_zero.mp hlen.symm
    subst hstack
    simp [nextLoopAux]
  | cons cursor crest ih =>
    intro stack hlen hnone
    cases cursor with
    | nil =>
      cases stack with
      | nil => simp at hlen
      | cons s srest =>
        have hlen2 : crest.length = srest.length := by
          simpa using hlen
        have := ih srest hlen2
        simpa [nextLoopAux] using this (by simpa [nextLoopAux] using hnone)
    | cons c cs =>
      cases stack with
      | nil => simp at hlen
      | cons s srest =>
        cases s with
        | mk p acc0 => simp [nextLoopAux] at hnone

/-! ### Claim C1

The specification claims exhaustion is terminal: once `next` returns
`None`, every later call returns `None`, and the entry transition (pushing
the root) happens only on the first advance of a traversal that has not
started.  The code's entry condition is merely `self.stack.is_empty()`:
after exhaustion both stacks are empty again, so the very next call
re-fires the entry transition and restarts the traversal. -/

/-- Claim C1, counterexample: on the unit-test tree, the fourth advance
call returns `None` (exhaustion), yet the fifth call returns `Some` again —
the entry transition re-fires after exhaustion, refuting both the
"once None, always None" and the "sole entry transition" sentences. -/
theorem c1_counterexample :
    ((testState3.next instAccInt none).1).isNone = true ∧
      (((testState3.next instAccInt none).2.next instAccInt (some 2)).1).isSome = true := by
  constructor
  · decide
  · decide

/-- Claim C1, amended: once `next` returns `None`, both stacks are empty
again, so the following call re-fires the entry transition and restarts
the traversal from the root (returning the root path seeded from the
neutral element) rather than returning `None` forever.  The entry
transition happens whenever the path stack is empty — on the first
advance and again after each exhaustion.  (Hypothesis: the two stacks
have equal length, which holds in every reachable state.) -/
theorem c1_amended_restart (inst : Accumulable Ac) (v : Visitor T Ac P)
    (z z2 : Option P) (hpar : v.children.length = v.stack.length)
    (hnone : (v.next inst z).1 = none) :
    (v.next inst z).2.stack = [] ∧
      ((v.next inst z).2.next inst z2).1 =
        some [(v.root, v.accumulate v.root inst.neutral z2)] := by
  by_cases hst : v.stack.isEmpty
  · exfalso
    simp [Visitor.next, hst] at hnone
  · have hstate := nextLoopAux_none_state v.get_children v.accumulate z
      v.children v.stack hpar (by simpa [Visitor.next, hst] using hnone)
    have hv2 : (v.next inst z).2 =
        { v with stack := [], children := [] } := by
      simp only [Visitor.next, hst, Bool.false_eq_true, if_false]
      rw [hstate]
    rw [hv2]
    refine ⟨rfl, ?_⟩
    simp [Visitor.next]

/-- Witness for the amended claim C1 at the unit-test traversal's
exhausted state. -/
theorem c1_amended_restart_witness :
    (testState3.next instAccInt none).2.stack = [] ∧
      ((testState3.next instAccInt none).2.next instAccInt (some 2)).1 =
        some [(testState3.root, testState3.accumulate testState3.root instAccInt.neutral (some 2))] :=
  c1_amended_restart instAccInt testState3 none (some 2) (by decide) rfl

/-! ### Claim C8: the `max_depth` hint is semantically inert. -/

/-- Claim C8: for every tree, every accumulation function and every pair of
`max_depth` hints (including 0 and values smaller than the tree's depth),
`Visitor::new` succeeds and produces identical walkers, and the full
traversal produces the identical sequence of (node, accumulator) paths:
the hint only pre-sizes `Vec` capacity (`Vec::with_capacity`), which is
not observable state and never rejects deeper trees. -/
theorem c8_depth_hint_inert (root : T) (d1 d2 : Nat) (gc : T → List T)
    (f : T → Ac → Option P → Ac) (inst : Accumulable Ac) (fuel : Nat)
    (params : List P) :
    Visitor.new root d1 gc f = Visitor.new root d2 gc f ∧
      Visitor.run inst fuel (Visitor.new root d1 gc f : Visitor T Ac P) params =
        Visitor.run inst fuel (Visitor.new root d2 gc f) params :=
  ⟨rfl, rfl⟩

/-! ### Claim C9: each `next` call terminates; the backtracking loop runs
at most stack depth + 1 iterations. -/

/-- The backtracking loop reaches a `return` within `children.length + 1`
iterations, whatever the stacks: `nextLoopFuel` with that much fuel agrees
with the loop's result. -/
theorem nextLoopFuel_adequate (gc : T → List T) (f : T → Ac → Option P → Ac)
    (z : Option P) :
    ∀ (children : List (List T)) (stack : List (T × Ac)),
      nextLoopFuel gc f z (children.length + 1) stack children =
        some (nextLoopAux gc f z stack children) := by
  intro children
  induction children with
  | nil => intro stack; rfl
  | cons cursor crest ih =>
    intro stack
    cases cursor with
    | nil => simpa [nextLoopFuel, nextLoopAux] using ih stack.tail
    | cons c cs =>
      cases stack with
      | nil => rfl
      | cons s srest => cases s; rfl

/-- Claim C9: a single `next` call always terminates — with parallel
stacks (which every reachable state has), the internal backtracking loop
returns `Some` or `None` within at most (current stack depth) + 1
iterations: running the loop with that much fuel already yields the
loop's final answer. -/
theorem c9_loop_iteration_bound (gc : T → List T) (f : T → Ac → Option P → Ac)
    (z : Option P) (stack : List (T × Ac)) (children : List (List T))
    (hpar : children.length = stack.length) :
    nextLoopFuel gc f z (stack.length + 1) stack children =
      some (nextLoopAux gc f z stack children) := by
  rw [← hpar]
  exact nextLoopFuel_adequate gc f z children stack

/-- Witness for claim C9 at the state of the unit-test traversal after
its first advance (stack depth 1). -/
theorem c9_loop_iteration_bound_witness :
    nextLoopFuel testState1.get_children testState1.accumulate (some 3)
        (testState1.stack.length + 1) testState1.stack testState1.children =
      some (nextLoopAux testState1.get_children testState1.accumulate (some 3)
        testState1.stack testState1.children) :=
  c9_loop_iteration_bound testState1.get_children testState1.accumulate (some 3)
    testState1.stack testState1.children (by decide)

/-! ### Claim C10: the engine touches the `Accumulable` capability only
through `neutral`, and only in the entry transition. -/

/-- Claim C10: during traversal the engine uses the `Accumulable`
capability only to seed the root's accumulator in the entry transition:
(i) two instances with the same neutral element (but arbitrary, e.g.
different, binary `accumulate` methods) make `next` behave identically —
the engine never calls the trait's binary `accumulate`, every pushed
accumulator comes from the node-supplied closure; (ii) off the entry
transition (non-empty path stack) `next` does not depend on the instance
at all — `neutral` is called exactly in the entry transition; (iii) the
entry transition pushes precisely `accumulate(root, neutral(), zipped)`. -/
theorem c10_neutral_only_at_entry (inst1 inst2 : Accumulable Ac)
    (v : Visitor T Ac P) (z : Option P) :
    (inst1.neutral = inst2.neutral → v.next inst1 z = v.next inst2 z) ∧
      (v.stack ≠ [] → v.next inst1 z = v.next inst2 z) ∧
      (v.stack = [] →
        (v.next inst1 z).1 =
          some [(v.root, v.accumulate v.root inst1.neutral z)]) := by
  refine ⟨fun hneu => ?_, fun hne => ?_, fun hemp => ?_⟩
  · simp [Visitor.next, hneu]
  · have : v.stack.isEmpty = false := by
      cases hs : v.stack with
      | nil => exact absurd hs hne
      | cons a l => simp
    simp [Visitor.next, this]
  · simp [Visitor.next, hemp]

/-- Witness for claim C10: with addition replaced by multiplication as the
trait's binary combination (same neutral element 0), the unit-test
traversal's first two transitions are unchanged. -/
theorem c10_neutral_only_at_entry_witness :
    testVisitor.next instAccInt (some 2) = testVisitor.next instAccMul (some 2) ∧
      testState1.next instAccInt (some 3) = testState1.next instAccMul (some 3) :=
  ⟨(c10_neutral_only_at_entry instAccInt instAccMul testVisitor (some 2)).1 rfl,
    (c10_neutral_only_at_entry instAccInt instAccMul testState1 (some 3)).2.1
      (List.ne_nil_of_length_pos (by decide))⟩

/-! ### The traversal as a whole: `Visitor.run` computes `visitForest`. -/

/-- Unfolding of `Visitor.run` for one advance call. -/
theorem Visitor.run_succ (inst : Accumulable Ac) (fuel : Nat) (v : Visitor T Ac P)
    (params : List P) :
    Visitor.run inst (fuel + 1) v params =
      match v.next inst params.head? with
      | (none, _) => []
      | (some pth, v2) => pth :: Visitor.run inst fuel v2 params.tail := rfl

/-- Two states whose `next` calls agree produce the same run. -/
theorem Visitor.run_congr_next (inst : Accumulable Ac) (fuel : Nat)
    (v v2 : Visitor T Ac P) (params : List P)
    (h : v.next inst params.head? = v2.next inst params.head?) :
    Visitor.run inst (fuel + 1) v params = Visitor.run inst (fuel + 1) v2 params := by
  rw [Visitor.run_succ, Visitor.run_succ, h]

/-- `visitForest` consumes exactly one parameter per visited node. -/
theorem visitForest_snd (f : Tree α → Ac → Option P → Ac) (ts : List (Tree α))
    (anc : List (Tree α × Ac)) (pa : Ac) (params : List P) :
    (visitForest f anc pa ts params).2 = params.drop (Tree.sizeForest ts) := by
  match ts with
  | [] => simp [visitForest, Tree.sizeForest]
  | t :: ts2 =>
    have h1 := visitForest_snd f t.children (anc ++ [(t, f t pa params.head?)])
      (f t pa params.head?) params.tail
    have h2 := visitForest_snd f ts2 anc pa
      ((visitForest f (anc ++ [(t, f t pa params.head?)]) (f t pa params.head?)
        t.children params.tail).2)
    simp only [visitForest]
    rw [h2, h1, ← List.drop_one, List.drop_drop, List.drop_drop]
    congr 1
    rw [Tree.sizeForest, Tree.size_eq]
    omega
termination_by Tree.sizeForest ts
decreasing_by
  · rw [Tree.sizeForest, Tree.size_eq]; omega
  · rw [Tree.sizeForest, Tree.size_eq]; omega

/-- `visitForest` returns exactly one path per node of the forest. -/
theorem visitForest_length (f : Tree α → Ac → Option P → Ac) (ts : List (Tree α))
    (anc : List (Tree α × Ac)) (pa : Ac) (params : List P) :
    (visitForest f anc pa ts params).1.length = Tree.sizeForest ts := by
  match ts with
  | [] => simp [visitForest, Tree.sizeForest]
  | t :: ts2 =>
    have h1 := visitForest_length f t.children (anc ++ [(t, f t pa params.head?)])
      (f t pa params.head?) params.tail
    have h2 := visitForest_length f ts2 anc pa
      ((visitForest f (anc ++ [(t, f t pa params.head?)]) (f t pa params.head?)
        t.children params.tail).2)
    simp only [visitForest, List.length_cons, List.length_append]
    rw [h1, h2, Tree.sizeForest, Tree.size_eq]
    omega
termination_by Tree.sizeForest ts
decreasing_by
  · rw [Tree.sizeForest, Tree.size_eq]; omega
  · rw [Tree.sizeForest, Tree.size_eq]; omega

/-- Simulation of the walker by `visitForest`, from any mid-traversal
state: with path stack `p :: S` (top first) and cursor stack `ts :: C`
(the top cursor holding the forest `ts` of still-unvisited subtrees at
this level), a run with enough fuel produces the paths of `ts`'s forest
traversal and then continues as a run from the popped state `(S, C)` —
or stops if popping empties the stacks. -/
theorem run_forest (inst : Accumulable Ac) (f : Tree α → Ac → Option P → Ac)
    (root : Tree α) (ts : List (Tree α)) (p : Tree α × Ac)
    (S : List (Tree α × Ac)) (C : List (List (Tree α))) (k : Nat)
    (params : List P) (hlen : C.length = S.length) :
    Visitor.run inst (Tree.sizeForest ts + k)
        ⟨root, p :: S, ts :: C, Tree.children, f⟩ params =
      (visitForest f ((p :: S).reverse) p.2 ts params).1 ++
        (if S.length = 0 then [] else
          Visitor.run inst k ⟨root, S, C, Tree.children, f⟩
            (params.drop (Tree.sizeForest ts))) := by
  match ts with
  | [] =>
    rw [Tree.sizeForest]
    simp only [visitForest, List.nil_append, List.drop_zero, Nat.zero_add]
    cases k with
    | zero => simp [Visitor.run]
    | succ k2 =>
      cases S with
      | nil =>
        have hC : C = [] := List.length_eq_zero.mp hlen
        subst hC
        simp only [List.length_nil, if_pos]
        rw [Visitor.run_succ]
        simp [Visitor.next, nextLoopAux]
      | cons q S2 =>
        cases C with
        | nil => simp at hlen
        | cons c C2 =>
          simp only [List.length_cons, Nat.succ_ne_zero, if_neg]
          exact Visitor.run_congr_next inst k2 _ _ params (by simp [Visitor.next, nextLoopAux])
  | t :: ts2 =>
    have hsz : Tree.sizeForest (t :: ts2) = 1 + (Tree.sizeForest t.children + Tree.sizeForest ts2) := by
      rw [Tree.sizeForest, Tree.size_eq]; omega
    rw [hsz]
    have hstep :
        Visitor.next inst ⟨root, p :: S, (t :: ts2) :: C, Tree.children, f⟩ params.head? =
          (some (((t, f t p.2 params.head?) :: p :: S).reverse),
            ⟨root, (t, f t p.2 params.head?) :: p :: S,
              t.children :: ts2 :: C, Tree.children, f⟩) := by
      cases p with
      | mk pn pac => simp [Visitor.next, nextLoopAux]
    have heq1 : 1 + (Tree.sizeForest t.children + Tree.sizeForest ts2) + k =
        (Tree.sizeForest t.children + (Tree.sizeForest ts2 + k)) + 1 := by omega
    rw [heq1, Visitor.run_succ, hstep]
    dsimp only
    have ih1 := run_forest inst f root t.children (t, f t p.2 params.head?)
      (p :: S) (ts2 :: C) (Tree.sizeForest ts2 + k) params.tail
      (by simpa using hlen)
    have ih2 := run_forest inst f root ts2 p S C k
      (params.tail.drop (Tree.sizeForest t.children)) hlen
    rw [ih1]
    simp only [List.length_cons, Nat.succ_ne_zero, if_neg] at *
    rw [ih2]
    simp only [visitForest]
    have hr12 : (visitForest f ((p :: S).reverse ++ [(t, f t p.2 params.head?)])
        (f t p.2 params.head?) t.children params.tail).2 =
        params.tail.drop (Tree.sizeForest t.children) :=
      visitForest_snd f t.children _ _ params.tail
    rw [hr12]
    have hdrop : (params.tail.drop (Tree.sizeForest t.children)).drop (Tree.sizeForest ts2) =
        params.drop (1 + (Tree.sizeForest t.children + Tree.sizeForest ts2)) := by
      rw [← List.drop_one, List.drop_drop, List.drop_drop]
    rw [hdrop]
    simp [List.append_assoc]
termination_by Tree.sizeForest ts
decreasing_by
  · rw [Tree.sizeForest, Tree.size_eq]; omega
  · rw [Tree.sizeForest, Tree.size_eq]; omega

/-- The full traversal: from a fresh walker on tree `t`, a run with fuel
at least `t.size` (any surplus is harmless — the walker is exhausted
after `t.size` advances) returns exactly the paths described by
`visitForest` seeded with the neutral element. -/
theorem run_init (inst : Accumulable Ac) (f : Tree α → Ac → Option P → Ac)
    (t : Tree α) (d k : Nat) (params : List P) :
    Visitor.run inst (t.size + k) (Visitor.new t d Tree.children f) params =
      (visitForest f [] inst.neutral [t] params).1 := by
  have hsz : t.size + k = (Tree.sizeForest t.children + k) + 1 := by
    rw [Tree.size_eq]; omega
  rw [hsz, Visitor.run_succ]
  have hstep : Visitor.next inst (Visitor.new t d Tree.children f) params.head? =
      (some [(t, f t inst.neutral params.head?)],
        ⟨t, [(t, f t inst.neutral params.head?)], [t.children], Tree.children, f⟩) := by
    simp [Visitor.next, Visitor.new]
  rw [hstep]
  dsimp only
  have ih := run_forest inst f t t.children (t, f t inst.neutral params.head?)
    [] [] k params.tail rfl
  rw [ih]
  simp [visitForest]

/-! ### Visited nodes: one path per node, last elements in pre-order. -/

/-- The last elements (the visited nodes) of the paths produced on a
forest are exactly the forest's pre-order listing. -/
theorem visitForest_lastNodes (f : Tree α → Ac → Option P → Ac) (ts : List (Tree α))
    (anc : List (Tree α × Ac)) (pa : Ac) (params : List P) :
    (visitForest f anc pa ts params).1.map (fun pth => pth.getLast?.map Prod.fst) =
      (Tree.preorderForest ts).map some := by
  match ts with
  | [] => simp [visitForest, Tree.preorderForest]
  | t :: ts2 =>
    have h1 := visitForest_lastNodes f t.children (anc ++ [(t, f t pa params.head?)])
      (f t pa params.head?) params.tail
    have h2 := visitForest_lastNodes f ts2 anc pa
      ((visitForest f (anc ++ [(t, f t pa params.head?)]) (f t pa params.head?)
        t.children params.tail).2)
    simp only [visitForest, List.map_cons, List.map_append]
    rw [h1, h2, Tree.preorderForest, Tree.preorder_eq]
    simp [List.getLast?_concat]
termination_by Tree.sizeForest ts
decreasing_by
  · rw [Tree.sizeForest, Tree.size_eq]; omega
  · rw [Tree.sizeForest, Tree.size_eq]; omega

/-- Over a full traversal of tree `t`, the visited node of the `j`-th
returned path (its last element) is the `j`-th node of `t` in pre-order:
every node is visited exactly once, depth-first, siblings left to right. -/
theorem run_lastNodes (inst : Accumulable Ac) (f : Tree α → Ac → Option P → Ac)
    (t : Tree α) (d k : Nat) (params : List P) :
    (Visitor.run inst (t.size + k) (Visitor.new t d Tree.children f) params).map
        (fun pth => pth.getLast?.map Prod.fst) = t.preorder.map some := by
  rw [run_init, visitForest_lastNodes, Tree.preorderForest, Tree.preorderForest]
  simp

/-- The number of returned paths over a full traversal is the number of
nodes of the tree. -/
theorem run_length (inst : Accumulable Ac) (f : Tree α → Ac → Option P → Ac)
    (t : Tree α) (d k : Nat) (params : List P) :
    (Visitor.run inst (t.size + k) (Visitor.new t d Tree.children f) params).length =
      t.size := by
  rw [run_init, visitForest_length]
  simp [Tree.sizeForest]

/-- The driving loop of `Visitable::visit` is the left fold of the
`on_visit` callback (with the ROOT as receiver) over the run's paths. -/
theorem visitDriver_eq_foldl (inst : Accumulable Ac) (root : T)
    (onv : T → List (T × Ac) → Payload → Payload) :
    ∀ (fuel : Nat) (v : Visitor T Ac P) (zipped : List P) (payload : Payload),
      visitDriver inst root onv fuel v zipped payload =
        (Visitor.run inst fuel v zipped).foldl (fun pl st => onv root st pl) payload := by
  intro fuel
  induction fuel with
  | zero => intro v zipped payload; rfl
  | succ n ih =>
    intro v zipped payload
    rw [Visitor.run_succ]
    cases h : v.next inst zipped.head? with
    | mk o v2 =>
      cases o with
      | none => simp [visitDriver, h]
      | some st => simp [visitDriver, h, ih]

/-! ### Claim C5: completeness and pre-order of visitation. -/

/-- Claim C5: repeatedly calling `next` until exhaustion visits every node
of the tree exactly once, in pre-order depth-first order (each returned
path's visited node — its last element — is the corresponding entry of the
tree's pre-order listing, for any sufficient fuel and any parameters). -/
theorem c5_preorder_visitation (inst : Accumulable Ac) (f : Tree α → Ac → Option P → Ac)
    (t : Tree α) (d k : Nat) (params : List P) :
    (Visitor.run inst (t.size + k) (Visitor.new t d Tree.children f) params).map
        (fun pth => pth.getLast?.map Prod.fst) = t.preorder.map some :=
  run_lastNodes inst f t d k params

/-! ### Claim C6: the concrete unit-test scenario. -/

/-- Claim C6: on the tree with root 1 and leaf children 2 and 3, with
parameters `[2, 3, 4]`, accumulation `acc + val * parameter` and neutral 0,
the traversal returns exactly three paths whose final accumulators are
2, 8 and 14 in visitation order — for every fuel at least 3 (so no fourth
path ever appears) — after which the next advance call returns `None`. -/
theorem c6_concrete_scenario (k : Nat) :
    (Visitor.run instAccInt (3 + k) testVisitor [2, 3, 4]).map
        (fun pth => pth.getLast?.map Prod.snd) = [some 2, some 8, some 14] ∧
      ((testState3.next instAccInt none).1).isNone = true := by
  constructor
  · have h1 := run_init instAccInt testAccumulate testTree 2 k [2, 3, 4]
    have h0 := run_init instAccInt testAccumulate testTree 2 0 [2, 3, 4]
    have hsz : testTree.size = 3 := rfl
    rw [hsz] at h1 h0
    show (Visitor.run instAccInt (3 + k)
      (Visitor.new testTree 2 Tree.children testAccumulate) [2, 3, 4]).map
        (fun pth => pth.getLast?.map Prod.snd) = [some 2, some 8, some 14]
    rw [h1, ← h0]
    decide
  · decide

/-! ### Claim C2

The specification claims `visit` invokes the visit callback *of the node
being visited* (the last element of the returned path).  In the source,
the loop body is `self.on_visit(stack, payload)` where `self` is the node
`visit` was called on — the ROOT.  The callback is indeed invoked exactly
once per node with the full path and the mutable payload, but its receiver
is the root for every invocation, not the visited node. -/

/-- A two-node tree whose nodes are distinguishable by value. -/
def recTree : Tree Int := Tree.node 1 [Tree.node 2 []]

/-- A visit callback that records its receiver's value in the payload. -/
def onvRecord : Tree Int → List (Tree Int × Int) → List Int → List Int :=
  fun r _ pl => pl ++ [r.val]

/-- Claim C2, counterexample: with a callback that records the value of
the node it is invoked on, `visit` over the two-node tree records
`[1, 1]` — the root both times — while the visited nodes (last elements
of the returned paths, i.e. the pre-order listing) are `[1, 2]`.  The
callback invoked is therefore not the visited node's but the root's. -/
theorem c2_counterexample :
    visit instAccInt recTree 2 Tree.children (fun _ a _ => a) onvRecord 3
        ([] : List Int) ([] : List Int) = [1, 1] ∧
      recTree.preorder.map Tree.val = [1, 2] ∧
      ([1, 1] : List Int) ≠ [1, 2] := by
  refine ⟨by decide, by decide, by decide⟩

/-- Claim C2, amended: for every finite tree, `visit` invokes the
`on_visit` callback exactly once per node of the tree, in visitation
order — the payload threaded through is the left fold of the callback
over the run's returned paths — and the `j`-th invocation receives the
full root-to-current path whose last element is the `j`-th pre-order
node with its already-computed accumulator; but the receiver of every
invocation is the root (the node `visit` was called on), not the node
being visited. -/
theorem c2_amended_root_receiver (inst : Accumulable Ac)
    (f : Tree α → Ac → Option P → Ac) (t : Tree α) (d k : Nat) (params : List P)
    (onv : Tree α → List (Tree α × Ac) → Payload → Payload) (payload : Payload) :
    visit inst t d Tree.children f onv (t.size + k) params payload =
        (Visitor.run inst (t.size + k) (Visitor.new t d Tree.children f) params).foldl
          (fun pl st => onv t st pl) payload ∧
      (Visitor.run inst (t.size + k) (Visitor.new t d Tree.children f) params).map
          (fun pth => pth.getLast?.map Prod.fst) = t.preorder.map some ∧
      (Visitor.run inst (t.size + k) (Visitor.new t d Tree.children f) params).length =
        t.size :=
  ⟨visitDriver_eq_foldl inst t onv (t.size + k) _ params payload,
    run_lastNodes inst f t d k params,
    run_length inst f t d k params⟩

/-! ### Claim C4: every returned path is the ancestor chain of the
just-visited node. -/

/-- A `getElem?` hit is a member. -/
theorem mem_of_getElem?_eq_some {l : List β} {j : Nat} {x : β}
    (h : l[j]? = some x) : x ∈ l := by
  rcases List.getElem?_eq_some.mp h with ⟨hj, hx⟩
  exact hx ▸ List.getElem_mem hj

/-- Every path produced on a forest whose trees are children of the last
ancestor extends the ancestor chain: its node components form a rooted
chain ending at the visited node (the path's last element). -/
theorem visitForest_chain (f : Tree α → Ac → Option P → Ac) (root : Tree α)
    (ts : List (Tree α)) (anc : List (Tree α × Ac)) (pa : Ac) (params : List P)
    (lastN : Tree α)
    (hanc : RootedChain Tree.children root (anc.map Prod.fst) lastN)
    (hts : ∀ x ∈ ts, x ∈ lastN.children) :
    ∀ pth ∈ (visitForest f anc pa ts params).1,
      ∃ nd ac, pth.getLast? = some (nd, ac) ∧
        RootedChain Tree.children root (pth.map Prod.fst) nd := by
  match ts with
  | [] => intro pth h; simp [visitForest] at h
  | t :: ts2 =>
    intro pth h
    simp only [visitForest, List.mem_cons, List.mem_append] at h
    have hchain2 :
        RootedChain Tree.children root
          ((anc ++ [(t, f t pa params.head?)]).map Prod.fst) t := by
      rw [List.map_append]
      exact RootedChain.step _ lastN t hanc (hts t (by simp))
    rcases h with h | h | h
    · subst h
      exact ⟨t, f t pa params.head?, List.getLast?_concat _, hchain2⟩
    · exact visitForest_chain f root t.children (anc ++ [(t, f t pa params.head?)])
        (f t pa params.head?) params.tail t hchain2 (fun x hx => hx) pth h
    · exact visitForest_chain f root ts2 anc pa
        ((visitForest f (anc ++ [(t, f t pa params.head?)]) (f t pa params.head?)
          t.children params.tail).2) lastN hanc
        (fun x hx => hts x (by simp [hx])) pth h
termination_by Tree.sizeForest ts
decreasing_by
  · rw [Tree.sizeForest, Tree.size_eq]; omega
  · rw [Tree.sizeForest, Tree.size_eq]; omega

/-- Claim C4: every non-`None` result of `next` over a full traversal is
exactly the ancestor chain of the just-visited node: its node components
form a rooted chain (root first, each node a child of its predecessor,
per `children()` order membership), and the visited node is the last
element; the path's length is therefore the visited node's depth. -/
theorem c4_path_is_ancestor_chain (inst : Accumulable Ac)
    (f : Tree α → Ac → Option P → Ac) (t : Tree α) (d k : Nat) (params : List P)
    (j : Nat) (pth : List (Tree α × Ac))
    (h : (Visitor.run inst (t.size + k) (Visitor.new t d Tree.children f) params)[j]? =
      some pth) :
    ∃ nd ac, pth.getLast? = some (nd, ac) ∧
      RootedChain Tree.children t (pth.map Prod.fst) nd := by
  rw [run_init] at h
  have hmem := mem_of_getElem?_eq_some h
  simp only [visitForest, List.mem_cons, List.mem_append, List.nil_append] at hmem
  have hbase :
      RootedChain Tree.children t
        (([(t, f t inst.neutral params.head?)]).map Prod.fst) t := by
    simpa using @RootedChain.base (Tree α) Tree.children t
  rcases hmem with hm | hm | hm
  · subst hm
    exact ⟨t, f t inst.neutral params.head?, rfl, hbase⟩
  · exact visitForest_chain f t t.children [(t, f t inst.neutral params.head?)]
      (f t inst.neutral params.head?) params.tail t hbase (fun x hx => hx) pth hm
  · simp [visitForest] at hm

/-- Witness for claim C4: the second path of the unit-test traversal is
the chain root → child 2. -/
theorem c4_path_is_ancestor_chain_witness :
    ∃ nd ac,
      ([(testTree, 2), (Tree.node 2 ([] : List (Tree Int)), 8)] :
          List (Tree Int × Int)).getLast? = some (nd, ac) ∧
        RootedChain Tree.children testTree
          (([(testTree, 2), (Tree.node 2 [], 8)] :
            List (Tree Int × Int)).map Prod.fst) nd :=
  c4_path_is_ancestor_chain instAccInt testAccumulate testTree 2 0 [2, 3, 4] 1
    [(testTree, 2), (Tree.node 2 [], 8)] rfl

/-! ### Accumulator bookkeeping: the fold law, with parameter indexing. -/

/-- `dropLast` of a bounded `take` drops one. -/
theorem dropLast_take_of_le {l : List β} {n : Nat} (hn : n ≤ l.length) :
    (l.take n).dropLast = l.take (n - 1) := by
  rw [List.dropLast_eq_take, List.take_take, List.length_take]
  congr 1
  omega

/-- The last element of `l.take (i + 1)` is `l`'s `i`-th element. -/
theorem getLast?_take_of_getElem? {l : List β} {i : Nat} {x : β}
    (h : l[i]? = some x) : (l.take (i + 1)).getLast? = some x := by
  have hi : i < l.length := by
    by_contra hc
    rw [List.getElem?_eq_none (by omega)] at h
    exact Option.noConfusion h
  rw [List.getLast?_eq_getElem?, List.length_take]
  have hlen : min (i + 1) l.length = i + 1 := by omega
  rw [hlen]
  simp only [Nat.add_sub_cancel]
  rw [List.getElem?_take, if_pos (by omega)]
  exact h

/-- Bookkeeping of the paths produced on a forest, assuming the parent
accumulator `pa` is the last accumulator of the ancestor path (or the
neutral element when there are no ancestors yet).  The `j`-th path:
(i) extends the ancestor path; (ii) ends in a node whose stored
accumulator is the node-supplied `accumulate` applied to the accumulator
right below it on the stack (neutral for the root) and the parameter of
the `j`-th advance call; (iii) each of its prefixes beyond the ancestors
was itself returned by an earlier advance call of the same forest
traversal. -/
theorem visitForest_acc (inst : Accumulable Ac) (f : Tree α → Ac → Option P → Ac)
    (ts : List (Tree α)) (anc : List (Tree α × Ac)) (pa : Ac) (params : List P)
    (hpa : pa = (anc.map Prod.snd).getLastD inst.neutral) :
    ∀ (j : Nat) (pth : List (Tree α × Ac)),
      ((visitForest f anc pa ts params).1)[j]? = some pth →
      pth.take anc.length = anc ∧
      (∃ nd ac, pth.getLast? = some (nd, ac) ∧
        ac = f nd ((pth.dropLast.map Prod.snd).getLastD inst.neutral) params[j]?) ∧
      ∀ i, anc.length ≤ i → i + 1 ≤ pth.length →
        ∃ j2, j2 ≤ j ∧
          ((visitForest f anc pa ts params).1)[j2]? = some (pth.take (i + 1)) := by
  match ts with
  | [] => intro j pth hj; simp [visitForest] at hj
  | t :: ts2 =>
    intro j pth hj
    have hO : (visitForest f anc pa (t :: ts2) params).1 =
        (anc ++ [(t, f t pa params.head?)]) ::
          ((visitForest f (anc ++ [(t, f t pa params.head?)]) (f t pa params.head?)
              t.children params.tail).1 ++
            (visitForest f anc pa ts2
              ((visitForest f (anc ++ [(t, f t pa params.head?)])
                (f t pa params.head?) t.children params.tail).2)).1) := by
      simp only [visitForest]
    rw [hO] at hj ⊢
    match j with
    | 0 =>
      rw [List.getElem?_cons_zero] at hj
      have hpth : anc ++ [(t, f t pa params.head?)] = pth := by
        exact Option.some.inj hj
      subst hpth
      refine ⟨List.take_left _ _, ⟨t, f t pa params.head?, List.getLast?_concat _, ?_⟩, ?_⟩
      · rw [List.dropLast_concat, ← hpa, ← List.head?_eq_getElem?]
      · intro i hi hlen
        rw [List.length_append, List.length_cons, List.length_nil] at hlen
        have hieq : i = anc.length := by omega
        refine ⟨0, Nat.le_refl 0, ?_⟩
        rw [List.getElem?_cons_zero]
        have htk : (anc ++ [(t, f t pa params.head?)]).take (i + 1) =
            anc ++ [(t, f t pa params.head?)] := by
          have : i + 1 = (anc ++ [(t, f t pa params.head?)]).length := by
            rw [List.length_append, List.length_cons, List.length_nil]; omega
          rw [this, List.take_length]
        rw [htk]
    | jj + 1 =>
      rw [List.getElem?_cons_succ] at hj
      by_cases hlt :
        jj < (visitForest f (anc ++ [(t, f t pa params.head?)])
          (f t pa params.head?) t.children params.tail).1.length
      · rw [List.getElem?_append, if_pos hlt] at hj
        have hpa2 : f t pa params.head? =
            ((anc ++ [(t, f t pa params.head?)]).map Prod.snd).getLastD inst.neutral := by
          rw [List.map_append]
          simp
        obtain ⟨ih1a, ih1b, ih1c⟩ := visitForest_acc inst f t.children
          (anc ++ [(t, f t pa params.head?)]) (f t pa params.head?) params.tail
          hpa2 jj pth hj
        refine ⟨?_, ?_, ?_⟩
        · have h1 : (pth.take (anc ++ [(t, f t pa params.head?)]).length).take anc.length =
              pth.take anc.length := by
            rw [List.take_take]
            congr 1
            rw [List.length_append, List.length_cons, List.length_nil]
            omega
          rw [← h1, ih1a, List.take_left]
        · rcases ih1b with ⟨nd, ac, hlast, hac⟩
          refine ⟨nd, ac, hlast, ?_⟩
          rw [hac]
          congr 1
          rw [← List.drop_one, List.getElem?_drop]
          congr 1
          omega
        · intro i hi hlen
          rcases Nat.eq_or_lt_of_le hi with heq | hlt2
          · refine ⟨0, Nat.zero_le _, ?_⟩
            rw [List.getElem?_cons_zero]
            have htk : pth.take (i + 1) = anc ++ [(t, f t pa params.head?)] := by
              rw [← ih1a]
              congr 1
              rw [List.length_append, List.length_cons, List.length_nil]
              omega
            rw [htk]
          · have hi2 : (anc ++ [(t, f t pa params.head?)]).length ≤ i := by
              rw [List.length_append, List.length_cons, List.length_nil]
              omega
            obtain ⟨j3, hj3le, hj3⟩ := ih1c i hi2 hlen
            refine ⟨j3 + 1, by omega, ?_⟩
            rw [List.getElem?_cons_succ, List.getElem?_append, if_pos (by omega)]
            exact hj3
      · push_neg at hlt
        rw [List.getElem?_append, if_neg (by omega)] at hj
        obtain ⟨ih2a, ih2b, ih2c⟩ := visitForest_acc inst f ts2 anc pa
          ((visitForest f (anc ++ [(t, f t pa params.head?)]) (f t pa params.head?)
            t.children params.tail).2) hpa
          (jj - (visitForest f (anc ++ [(t, f t pa params.head?)])
            (f t pa params.head?) t.children params.tail).1.length) pth hj
        have hlen1 : (visitForest f (anc ++ [(t, f t pa params.head?)])
            (f t pa params.head?) t.children params.tail).1.length =
            Tree.sizeForest t.children :=
          visitForest_length f t.children _ _ params.tail
        refine ⟨ih2a, ?_, ?_⟩
        · rcases ih2b with ⟨nd, ac, hlast, hac⟩
          refine ⟨nd, ac, hlast, ?_⟩
          rw [hac]
          congr 1
          rw [visitForest_snd, List.getElem?_drop, List.getElem?_tail]
          congr 1
          omega
        · intro i hi hlen
          obtain ⟨j4, hj4le, hj4⟩ := ih2c i hi hlen
          refine ⟨(visitForest f (anc ++ [(t, f t pa params.head?)])
            (f t pa params.head?) t.children params.tail).1.length + j4 + 1,
            by omega, ?_⟩
          rw [List.getElem?_cons_succ, List.getElem?_append, if_neg (by omega)]
          have hidx : (visitForest f (anc ++ [(t, f t pa params.head?)])
              (f t pa params.head?) t.children params.tail).1.length + j4 -
              (visitForest f (anc ++ [(t, f t pa params.head?)])
                (f t pa params.head?) t.children params.tail).1.length = j4 := by
            omega
          rw [hidx]
          exact hj4
termination_by Tree.sizeForest ts
decreasing_by
  · rw [Tree.sizeForest, Tree.size_eq]; omega
  · rw [Tree.sizeForest, Tree.size_eq]; omega

/-! ### Claim C3: the accumulator fold law. -/

/-- Claim C3: over a full traversal, the accumulator stored at stack
position `i` of any returned path is the left-to-right fold of the visited
ancestors' `accumulate` calls from the neutral element: it equals
`f node_i acc_before param`, where `acc_before` is the accumulator at
position `i - 1` (the neutral element for `i = 0`, expressed below as the
last accumulator of `pth.take i` with default neutral) and `param` is the
parameter supplied at the advance call `j2 ≤ j` that visited `node_i` —
the call whose returned path was exactly `pth.take (i + 1)`. -/
theorem c3_accumulator_fold (inst : Accumulable Ac)
    (f : Tree α → Ac → Option P → Ac) (t : Tree α) (d k : Nat) (params : List P)
    (j i : Nat) (pth : List (Tree α × Ac)) (nd : Tree α) (ac : Ac)
    (hj : (Visitor.run inst (t.size + k) (Visitor.new t d Tree.children f) params)[j]? =
      some pth)
    (hi : pth[i]? = some (nd, ac)) :
    ∃ j2, j2 ≤ j ∧
      (Visitor.run inst (t.size + k) (Visitor.new t d Tree.children f) params)[j2]? =
        some (pth.take (i + 1)) ∧
      ac = f nd (((pth.take i).map Prod.snd).getLastD inst.neutral) params[j2]? := by
  rw [run_init] at hj ⊢
  obtain ⟨-, -, hpre⟩ := visitForest_acc inst f [t] [] inst.neutral params (by simp)
    j pth hj
  have hlen : i + 1 ≤ pth.length := by
    rcases List.getElem?_eq_some.mp hi with ⟨hlt, -⟩
    omega
  obtain ⟨j2, hle, hj2⟩ := hpre i (Nat.zero_le _) hlen
  obtain ⟨-, ⟨nd2, ac2, hlast2, hac2⟩, -⟩ :=
    visitForest_acc inst f [t] [] inst.neutral params (by simp) j2 (pth.take (i + 1)) hj2
  have hlast : (pth.take (i + 1)).getLast? = some (nd, ac) :=
    getLast?_take_of_getElem? hi
  rw [hlast] at hlast2
  obtain ⟨hnd, hacq⟩ := Prod.mk.injEq .. ▸ Option.some.inj hlast2
  have hdl : (pth.take (i + 1)).dropLast = pth.take i := by
    rw [dropLast_take_of_le hlen]
    congr 1
  rw [hdl] at hac2
  exact ⟨j2, hle, hj2, by rw [hacq, hac2, hnd]⟩

/-- Witness for claim C3 on the unit-test traversal: position 0 of the
second returned path. -/
theorem c3_accumulator_fold_witness :
    ∃ j2, j2 ≤ 1 ∧
      (Visitor.run instAccInt (testTree.size + 0)
          (Visitor.new testTree 2 Tree.children testAccumulate) [2, 3, 4])[j2]? =
        some (([(testTree, 2), (Tree.node 2 [], 8)] :
          List (Tree Int × Int)).take (0 + 1)) ∧
      (2 : Int) = testAccumulate testTree
        (((([(testTree, 2), (Tree.node 2 [], 8)] :
          List (Tree Int × Int)).take 0).map Prod.snd).getLastD instAccInt.neutral)
        ([2, 3, 4] : List Int)[j2]? :=
  c3_accumulator_fold instAccInt testAccumulate testTree 2 0 [2, 3, 4] 1 0
    [(testTree, 2), (Tree.node 2 [], 8)] testTree 2 rfl rfl

/-! ### Claim C7: a parameter list shorter than the traversal is benign. -/

/-- Claim C7: when the parameter sequence is exhausted before the
traversal ends, nothing fails: the run still returns one path per node of
the tree, visiting every node in pre-order, and every advance call from
index `params.length` on receives `none` as its parameter — the visited
node's accumulator on such a call is computed by the node-supplied
`accumulate` applied to `none`, which decides the fallback. -/
theorem c7_short_parameters (inst : Accumulable Ac)
    (f : Tree α → Ac → Option P → Ac) (t : Tree α) (d k : Nat) (params : List P)
    (hshort : params.length < t.size) :
    (Visitor.run inst (t.size + k) (Visitor.new t d Tree.children f) params).length =
        t.size ∧
      (Visitor.run inst (t.size + k) (Visitor.new t d Tree.children f) params).map
          (fun pth => pth.getLast?.map Prod.fst) = t.preorder.map some ∧
      ∀ j pth, params.length ≤ j →
        (Visitor.run inst (t.size + k) (Visitor.new t d Tree.children f) params)[j]? =
          some pth →
        ∃ nd ac, pth.getLast? = some (nd, ac) ∧
          ac = f nd ((pth.dropLast.map Prod.snd).getLastD inst.neutral) none := by
  refine ⟨run_length inst f t d k params, run_lastNodes inst f t d k params, ?_⟩
  intro j pth hjge hj
  rw [run_init] at hj
  obtain ⟨-, ⟨nd, ac, hlast, hac⟩, -⟩ :=
    visitForest_acc inst f [t] [] inst.neutral params (by simp) j pth hj
  refine ⟨nd, ac, hlast, ?_⟩
  rw [List.getElem?_eq_none hjge] at hac
  exact hac

/-- The accumulation closure of `visitable.rs`'s unit test, which defines
a fallback for a missing parameter: `self.val * zipped.unwrap_or(&1) + acc`. -/
def testAccumulateOr (x : Tree Int) (acc : Int) (zipped : Option Int) : Int :=
  x.val * zipped.getD 1 + acc

/-- Witness for claim C7: the unit-test tree traversed with the single
parameter `[5]` (3 nodes, 1 parameter). -/
theorem c7_short_parameters_witness :
    (Visitor.run instAccInt (testTree.size + 0)
        (Visitor.new testTree 2 Tree.children testAccumulateOr) [5]).length =
        testTree.size ∧
      (Visitor.run instAccInt (testTree.size + 0)
          (Visitor.new testTree 2 Tree.children testAccumulateOr) [5]).map
          (fun pth => pth.getLast?.map Prod.fst) = testTree.preorder.map some ∧
      ∀ j pth, ([5] : List Int).length ≤ j →
        (Visitor.run instAccInt (testTree.size + 0)
            (Visitor.new testTree 2 Tree.children testAccumulateOr) [5])[j]? =
          some pth →
        ∃ nd ac, pth.getLast? = some (nd, ac) ∧
          ac = testAccumulateOr nd
            ((pth.dropLast.map Prod.snd).getLastD instAccInt.neutral) none :=
  c7_short_parameters instAccInt testAccumulateOr testTree 2 0 [5] (by decide)

end Pinocchio
